import Mathlib

/-!
Verification of the wg-fleet control plane (Python source) against its
natural-language specification, via a shallow embedding in Lean 4.

Conventions of the embedding:
* IPv6 addresses are `Nat` (the 128-bit value); a fleet subnet is the pair
  (network address, prefix length), membership being the aligned range check
  that `ipaddress.IPv6Network.__contains__` performs.
* Times (UTC instants) are `Int` in abstract units; durations are `Nat`
  minutes, matching `timedelta(minutes=…)`.
* A raised exception is an `Option`/`Except` error value; HTTP error
  responses carry their status code as a `Nat`.
* The random draw of `random.randint` and the freshly generated keypair are
  explicit arguments, so every handler is a pure function of its inputs.
-/

namespace WgFleet

/-! ### Decimal rendering and reading of numbers

Python renders `f"{counter}"` in decimal, and `parse_duration` converts a
digit run with `int(...)`. We embed both directions over `List Char`.
-/

/-- The decimal digit character for `d ∈ [0,9]` (as Python's `str` rendering). -/
def digitChar : Nat → Char
  | 0 => '0' | 1 => '1' | 2 => '2' | 3 => '3' | 4 => '4'
  | 5 => '5' | 6 => '6' | 7 => '7' | 8 => '8' | _ => '9'

/-- Fuel-based helper for `natDigits` (structural recursion, so that concrete
instances reduce by `decide`); fuel `n + 1` always suffices. -/
def natDigitsAux : Nat → Nat → List Char
  | 0, _ => []
  | fuel + 1, n =>
    if n < 10 then [digitChar n]
    else natDigitsAux fuel (n / 10) ++ [digitChar (n % 10)]

/-- Decimal digit list of `n`, most significant first (Python's `str(n)`). -/
def natDigits (n : Nat) : List Char := natDigitsAux (n + 1) n

theorem natDigitsAux_congr :
    ∀ f₁ f₂ n, n < f₁ → n < f₂ → natDigitsAux f₁ n = natDigitsAux f₂ n := by
  intro f₁
  induction f₁ with
  | zero => intro f₂ n h₁; omega
  | succ f₁ ih =>
    intro f₂ n h₁ h₂
    cases f₂ with
    | zero => omega
    | succ f₂ =>
      rw [natDigitsAux, natDigitsAux]
      by_cases h : n < 10
      · rw [if_pos h, if_pos h]
      · rw [if_neg h, if_neg h,
          ih f₂ (n / 10) (by omega) (by omega)]

/-- The recursion `natDigits` satisfies (Python's decimal rendering). -/
theorem natDigits_eq (n : Nat) :
    natDigits n = if n < 10 then [digitChar n]
      else natDigits (n / 10) ++ [digitChar (n % 10)] := by
  rw [natDigits, natDigitsAux]
  by_cases h : n < 10
  · rw [if_pos h, if_pos h]
  · rw [if_neg h, if_neg h, natDigits,
      natDigitsAux_congr n (n / 10 + 1) (n / 10) (by omega) (by omega)]

/-- Python's `str(n)` / f-string rendering of a natural number. -/
def natRepr (n : Nat) : String := ⟨natDigits n⟩

/-- Numeric value of a digit character (as `int(...)` reads one digit). -/
def digitVal (c : Char) : Nat := c.toNat - 48

/-- Value `int(...)` reads from a run of decimal digit characters. -/
def valDigits (l : List Char) : Nat := l.foldl (fun acc c => 10 * acc + digitVal c) 0

theorem valDigits_append_digit (l : List Char) (c : Char) :
    valDigits (l ++ [c]) = 10 * valDigits l + digitVal c := by
  simp [valDigits, List.foldl_append]

theorem digitVal_digitChar {d : Nat} (h : d < 10) : digitVal (digitChar d) = d := by
  interval_cases d <;> rfl

theorem isDigit_digitChar {d : Nat} (h : d < 10) : (digitChar d).isDigit = true := by
  interval_cases d <;> rfl

theorem natDigits_ne_nil (n : Nat) : natDigits n ≠ [] := by
  rw [natDigits_eq]
  split <;> simp

theorem natDigits_all_isDigit (n : Nat) : ∀ c ∈ natDigits n, c.isDigit = true := by
  induction n using Nat.strong_induction_on with
  | _ n ih =>
    rw [natDigits_eq]
    split
    · next h => intro c hc; simp at hc; subst hc; exact isDigit_digitChar h
    · next h =>
      intro c hc
      simp only [List.mem_append, List.mem_singleton] at hc
      rcases hc with hc | hc
      · exact ih (n / 10) (Nat.div_lt_self (by omega) (by omega)) c hc
      · subst hc; exact isDigit_digitChar (Nat.mod_lt _ (by omega))

theorem valDigits_natDigits (n : Nat) : valDigits (natDigits n) = n := by
  induction n using Nat.strong_induction_on with
  | _ n ih =>
    rw [natDigits_eq]
    split
    · next h =>
      simp [valDigits, digitVal_digitChar h]
    · next h =>
      rw [valDigits_append_digit, ih (n / 10) (Nat.div_lt_self (by omega) (by omega)),
        digitVal_digitChar (Nat.mod_lt _ (by omega))]
      omega

theorem natDigits_injective : Function.Injective natDigits := by
  intro a b h
  have := valDigits_natDigits a
  rw [h, valDigits_natDigits] at this
  omega

theorem natRepr_injective : Function.Injective natRepr := by
  intro a b h
  exact natDigits_injective (congrArg String.data h)

/-! ### `config.parse_duration`

`parse_duration` (src/config.py) runs `re.search(r'(\d+)h', s)` and
`re.search(r'(\d+)m', s)` and sums `60*hours + minutes`, raising `ValueError`
when the total is zero.  `re.search` with pattern `(\d+)X` succeeds at the
leftmost position `i` such that the maximal digit run starting at `i` is
nonempty and is followed by the literal `X`; the captured group is that run
(backtracking cannot shorten it, since the character after a shorter prefix
of the run would be a digit, not `X`).  `findNumBefore` is that semantics.
-/

/-- Model of `re.search(r'(\d+)' ++ target, ·)`: value of the leftmost maximal digit
run immediately followed by `target`, if any. -/
def findNumBefore (target : Char) : List Char → Option Nat
  | [] => none
  | c :: rest =>
    if c.isDigit then
      match (c :: rest).dropWhile Char.isDigit with
      | t :: _ =>
        if t = target then some (valDigits ((c :: rest).takeWhile Char.isDigit))
        else findNumBefore target rest
      | [] => findNumBefore target rest
    else findNumBefore target rest

/-- Embedding of `config.parse_duration`: total minutes from the first `<digits>h` and the
first `<digits>m` occurrences; `none` models the `ValueError` raised when the
total is zero. -/
def parse_duration (s : String) : Option Nat :=
  if 60 * (findNumBefore 'h' s.data).getD 0 + (findNumBefore 'm' s.data).getD 0 = 0
  then none
  else some (60 * (findNumBefore 'h' s.data).getD 0 + (findNumBefore 'm' s.data).getD 0)

theorem takeWhile_all_append {p : Char → Bool} {ds : List Char} {c : Char}
    (hds : ∀ x ∈ ds, p x = true) (hc : p c = false) (rest : List Char) :
    (ds ++ c :: rest).takeWhile p = ds := by
  induction ds with
  | nil => simp [List.takeWhile_cons, hc]
  | cons d ds ih =>
    have hd : p d = true := hds d (by simp)
    have ih' := ih (fun x hx => hds x (by simp [hx]))
    simp [List.takeWhile_cons, hd, ih']

theorem dropWhile_all_append {p : Char → Bool} {ds : List Char} {c : Char}
    (hds : ∀ x ∈ ds, p x = true) (hc : p c = false) (rest : List Char) :
    (ds ++ c :: rest).dropWhile p = c :: rest := by
  induction ds with
  | nil => simp [List.dropWhile_cons, hc]
  | cons d ds ih =>
    have hd : p d = true := hds d (by simp)
    have ih' := ih (fun x hx => hds x (by simp [hx]))
    simp [List.dropWhile_cons, hd, ih']

/-- At a nonempty digit run followed by the target, `re.search` succeeds
immediately with the value of that run. -/
theorem findNumBefore_here {target : Char} (hT : target.isDigit = false)
    {ds : List Char} (hne : ds ≠ []) (hds : ∀ x ∈ ds, x.isDigit = true)
    (rest : List Char) :
    findNumBefore target (ds ++ target :: rest) = some (valDigits ds) := by
  cases ds with
  | nil => exact absurd rfl hne
  | cons d ds' =>
    rw [List.cons_append, findNumBefore]
    have hd : d.isDigit = true := hds d (by simp)
    rw [if_pos hd]
    have hdrop : (d :: (ds' ++ target :: rest)).dropWhile Char.isDigit = target :: rest := by
      have := dropWhile_all_append (p := Char.isDigit) hds hT rest
      simpa using this
    have htake : (d :: (ds' ++ target :: rest)).takeWhile Char.isDigit = d :: ds' := by
      have := takeWhile_all_append (p := Char.isDigit) hds hT rest
      simpa using this
    simp [hdrop, htake]

/-- Scanning past a digit run that is followed by a non-digit other than the
target: the search continues after that separator. -/
theorem findNumBefore_skip {target sep : Char} (hsep : sep.isDigit = false)
    (hne : sep ≠ target) {ds : List Char} (hds : ∀ x ∈ ds, x.isDigit = true)
    (rest : List Char) :
    findNumBefore target (ds ++ sep :: rest) = findNumBefore target rest := by
  induction ds with
  | nil =>
    rw [List.nil_append, findNumBefore, if_neg (by simp [hsep])]
  | cons d ds' ih =>
    rw [List.cons_append, findNumBefore]
    have hd : d.isDigit = true := hds d (by simp)
    rw [if_pos hd]
    have hdrop : (d :: (ds' ++ sep :: rest)).dropWhile Char.isDigit = sep :: rest := by
      have := dropWhile_all_append (p := Char.isDigit) hds hsep rest
      simpa using this
    have ih' := ih (fun x hx => hds x (by simp [hx]))
    simp [hdrop, hne, ih']

/-- A successful search implies the target occurs in the string. -/
theorem findNumBefore_mem {target : Char} :
    ∀ {l : List Char} {v : Nat}, findNumBefore target l = some v → target ∈ l := by
  intro l
  induction l with
  | nil => intro v h; simp [findNumBefore] at h
  | cons c rest ih =>
    intro v h
    rw [findNumBefore] at h
    by_cases hc : c.isDigit
    · rw [if_pos hc] at h
      rcases hdrop : (c :: rest).dropWhile Char.isDigit with _ | ⟨t, tl⟩
      · simp only [hdrop] at h; exact List.mem_cons_of_mem _ (ih h)
      · simp only [hdrop] at h
        by_cases ht : t = target
        · have hmem : t ∈ (c :: rest).dropWhile Char.isDigit := by rw [hdrop]; simp
          have := (List.dropWhile_sublist (l := c :: rest) (p := Char.isDigit)).mem hmem
          rwa [ht] at this
        · rw [if_neg ht] at h; exact List.mem_cons_of_mem _ (ih h)
    · rw [if_neg hc] at h; exact List.mem_cons_of_mem _ (ih h)

theorem findNumBefore_of_not_mem {target : Char} {l : List Char}
    (h : target ∉ l) : findNumBefore target l = none := by
  cases hf : findNumBefore target l with
  | none => rfl
  | some v => exact absurd (findNumBefore_mem hf) h

/-! ### The spec's strict duration grammar

The spec (§6) defines the `duration` grammar as the concatenation of an
optional `<digits>h` part and an optional `<digits>m` part, at least one part
present and nothing else in the string.  `strict_duration_spec` is that
grammar written as a deterministic reader, with the value it denotes; it is
defined from the spec's words, for comparison against `parse_duration`,
which is defined from the source. -/
/-- Helper for `strict_duration_spec`: `d1` is the leading digit run, the
second argument is the remainder of the string after it. -/
def strictDurTail (d1 : List Char) : List Char → Option Nat
  | [] => none
  | c :: rest =>
    if c = 'h' then
      if d1 = [] then none
      else if rest = [] then some (60 * valDigits d1)
      else if rest.takeWhile Char.isDigit = [] then none
      else if rest.dropWhile Char.isDigit = ['m'] then
        some (60 * valDigits d1 + valDigits (rest.takeWhile Char.isDigit))
      else none
    else if c = 'm' then
      if d1 = [] then none
      else if rest = [] then some (valDigits d1)
      else none
    else none

def strict_duration_spec (s : String) : Option Nat :=
  strictDurTail (s.data.takeWhile Char.isDigit) (s.data.dropWhile Char.isDigit)

theorem all_isDigit_takeWhile (l : List Char) :
    ∀ x ∈ l.takeWhile Char.isDigit, x.isDigit = true := by
  intro x hx
  exact List.all_eq_true.mp (List.all_takeWhile (l := l)) x hx

theorem m_not_mem_digits {ds : List Char} (hds : ∀ x ∈ ds, x.isDigit = true) :
    'm' ∉ ds := fun hm => by simpa using hds 'm' hm

theorem h_not_mem_digits {ds : List Char} (hds : ∀ x ∈ ds, x.isDigit = true) :
    'h' ∉ ds := fun hh => by simpa using hds 'h' hh

/-- Every string of the spec's strict duration grammar whose total is nonzero
is accepted by `parse_duration`, with the value the grammar denotes.  (The
converse fails: `parse_duration` also accepts some strings outside the
grammar.) -/
theorem parse_duration_accepts_grammar (s : String) (v : Nat)
    (hg : strict_duration_spec s = some v) (hv : v ≠ 0) :
    parse_duration s = some v := by
  unfold strict_duration_spec at hg
  have hsplit := List.takeWhile_append_dropWhile (p := Char.isDigit) (l := s.data)
  set d1 := s.data.takeWhile Char.isDigit with hd1
  have hd1dig : ∀ x ∈ d1, x.isDigit = true := all_isDigit_takeWhile s.data
  rcases hr1 : s.data.dropWhile Char.isDigit with _ | ⟨c, rest⟩
  · rw [hr1] at hg; simp [strictDurTail] at hg
  · rw [hr1] at hg
    simp only [strictDurTail] at hg
    by_cases hch : c = 'h'
    · subst hch
      rw [if_pos rfl] at hg
      by_cases hd1e : d1 = []
      · rw [if_pos hd1e] at hg; simp at hg
      · rw [if_neg hd1e] at hg
        by_cases hre : rest = []
        · subst hre
          rw [if_pos rfl] at hg
          have hv60 : v = 60 * valDigits d1 := by
            simpa using hg.symm
          have hdata : s.data = d1 ++ 'h' :: [] := by rw [← hsplit, hr1]
          have hH : findNumBefore 'h' s.data = some (valDigits d1) := by
            rw [hdata]
            exact findNumBefore_here (by decide) hd1e hd1dig []
          have hM : findNumBefore 'm' s.data = none := by
            apply findNumBefore_of_not_mem
            rw [hdata]
            intro hm
            rcases List.mem_append.mp hm with hm | hm
            · exact m_not_mem_digits hd1dig hm
            · simp at hm
          have hne : ¬(60 * valDigits d1 + 0 = 0) := by omega
          unfold parse_duration
          rw [hH, hM]
          simp only [Option.getD_some, Option.getD_none]
          rw [if_neg hne]
          simp [hv60]
        · rw [if_neg hre] at hg
          set d2 := rest.takeWhile Char.isDigit with hd2
          have hd2dig : ∀ x ∈ d2, x.isDigit = true := all_isDigit_takeWhile rest
          by_cases hd2e : d2 = []
          · rw [if_pos hd2e] at hg; simp at hg
          · rw [if_neg hd2e] at hg
            by_cases hr2 : rest.dropWhile Char.isDigit = ['m']
            · rw [if_pos hr2] at hg
              have hvval : v = 60 * valDigits d1 + valDigits d2 := by
                simpa using hg.symm
              have hrest : rest = d2 ++ 'm' :: [] := by
                conv_lhs => rw [← List.takeWhile_append_dropWhile (p := Char.isDigit) (l := rest)]
                rw [hr2, ← hd2]
              have hdata : s.data = d1 ++ 'h' :: (d2 ++ 'm' :: []) := by
                rw [← hsplit, hr1, hrest]
              have hH : findNumBefore 'h' s.data = some (valDigits d1) := by
                rw [hdata]
                exact findNumBefore_here (by decide) hd1e hd1dig _
              have hM : findNumBefore 'm' s.data = some (valDigits d2) := by
                rw [hdata, findNumBefore_skip (by decide) (by decide) hd1dig]
                exact findNumBefore_here (by decide) hd2e hd2dig []
              have hne : ¬(60 * valDigits d1 + valDigits d2 = 0) := by omega
              unfold parse_duration
              rw [hH, hM]
              simp only [Option.getD_some]
              rw [if_neg hne]
              simp [hvval]
            · rw [if_neg hr2] at hg; simp at hg
    · rw [if_neg hch] at hg
      by_cases hcm : c = 'm'
      · subst hcm
        rw [if_pos rfl] at hg
        by_cases hd1e : d1 = []
        · rw [if_pos hd1e] at hg; simp at hg
        · rw [if_neg hd1e] at hg
          by_cases hre : rest = []
          · subst hre
            rw [if_pos rfl] at hg
            have hvval : v = valDigits d1 := by simpa using hg.symm
            have hdata : s.data = d1 ++ 'm' :: [] := by rw [← hsplit, hr1]
            have hH : findNumBefore 'h' s.data = none := by
              apply findNumBefore_of_not_mem
              rw [hdata]
              intro hh
              rcases List.mem_append.mp hh with hh | hh
              · exact h_not_mem_digits hd1dig hh
              · simp at hh
            have hM : findNumBefore 'm' s.data = some (valDigits d1) := by
              rw [hdata]
              exact findNumBefore_here (by decide) hd1e hd1dig []
            have hne : ¬(60 * 0 + valDigits d1 = 0) := by omega
            unfold parse_duration
            rw [hH, hM]
            simp only [Option.getD_some, Option.getD_none]
            rw [if_neg hne]
            simp [hvval]
          · rw [if_neg hre] at hg; simp at hg
      · rw [if_neg hcm] at hg; simp at hg

/-! ### Canonical duration renderings (`fmt` of spec property P6) -/

/-- Rendering `fmt` of a duration of `x` whole hours: `"Xh"`. -/
def fmtH (x : Nat) : String := natRepr x ++ "h"

/-- Rendering `fmt` of a duration of `y` minutes: `"Ym"`. -/
def fmtM (y : Nat) : String := natRepr y ++ "m"

/-- Rendering `fmt` of `x` hours and `y` minutes: `"XhYm"`. -/
def fmtHM (x y : Nat) : String := natRepr x ++ "h" ++ natRepr y ++ "m"

theorem strict_fmtH (x : Nat) : strict_duration_spec (fmtH x) = some (60 * x) := by
  have hdig := natDigits_all_isDigit x
  have hdata : (fmtH x).data = natDigits x ++ 'h' :: [] := by
    simp [fmtH, natRepr]
  rw [strict_duration_spec, hdata,
    takeWhile_all_append hdig (by decide) [],
    dropWhile_all_append hdig (by decide) []]
  simp [strictDurTail, natDigits_ne_nil x, valDigits_natDigits]

theorem strict_fmtM (y : Nat) : strict_duration_spec (fmtM y) = some y := by
  have hdig := natDigits_all_isDigit y
  have hdata : (fmtM y).data = natDigits y ++ 'm' :: [] := by
    simp [fmtM, natRepr]
  rw [strict_duration_spec, hdata,
    takeWhile_all_append hdig (by decide) [],
    dropWhile_all_append hdig (by decide) []]
  simp [strictDurTail, natDigits_ne_nil y, valDigits_natDigits]

theorem strict_fmtHM (x y : Nat) :
    strict_duration_spec (fmtHM x y) = some (60 * x + y) := by
  have hdigx := natDigits_all_isDigit x
  have hdigy := natDigits_all_isDigit y
  have hdata : (fmtHM x y).data = natDigits x ++ 'h' :: (natDigits y ++ 'm' :: []) := by
    simp [fmtHM, natRepr]
  rw [strict_duration_spec, hdata,
    takeWhile_all_append hdigx (by decide) _,
    dropWhile_all_append hdigx (by decide) _]
  rw [strictDurTail]
  rw [if_pos rfl, if_neg (natDigits_ne_nil x)]
  have hne : natDigits y ++ 'm' :: [] ≠ [] := by simp
  rw [if_neg hne,
    takeWhile_all_append hdigy (by decide) [],
    dropWhile_all_append hdigy (by decide) []]
  rw [if_neg (natDigits_ne_nil y), if_pos rfl, valDigits_natDigits, valDigits_natDigits]

/-- C8 (amended).  `parse_duration` accepts every string of the strict
grammar whose denoted total is nonzero, returning exactly that total; but it
does not reject all other forms: it reads the first `<digits>h` and the
first `<digits>m` occurrences anywhere in the string and raises only when
the total so found is zero (see `C8_counterexample` for a non-grammar string
it accepts). -/
theorem C8_parse_duration_strict_grammar (s : String) (v : Nat)
    (hg : strict_duration_spec s = some v) (hv : v ≠ 0) :
    parse_duration s = some v :=
  parse_duration_accepts_grammar s v hg hv

/-- Witness for C8: the grammar string `"2h30m"` denotes 150 minutes and is
accepted by `parse_duration` with that value. -/
theorem C8_parse_duration_strict_grammar_witness :
    strict_duration_spec "2h30m" = some 150 ∧ (150 : Nat) ≠ 0 ∧
      parse_duration "2h30m" = some 150 :=
  ⟨by decide, by decide, C8_parse_duration_strict_grammar "2h30m" 150 (by decide) (by decide)⟩

/-- Counterexample to C8 as stated: `"x1h"` is not in the strict grammar
(extra leading character), yet `parse_duration` returns 60 minutes instead of
raising. -/
theorem C8_counterexample :
    strict_duration_spec "x1h" = none ∧ parse_duration "x1h" = some 60 := by
  constructor <;> decide

/-- C9.  Duration round-trip: for `X ≥ 1`, `Y ≥ 1`,
`parse_duration (fmt d) = d` for the canonical renderings `"Xh"`, `"Ym"`,
`"XhYm"` (values in minutes: `60*X`, `Y`, `60*X + Y`). -/
theorem C9_duration_roundtrip (x y : Nat) (hx : 1 ≤ x) (hy : 1 ≤ y) :
    parse_duration (fmtH x) = some (60 * x) ∧
      parse_duration (fmtM y) = some y ∧
      parse_duration (fmtHM x y) = some (60 * x + y) :=
  ⟨parse_duration_accepts_grammar _ _ (strict_fmtH x) (by omega),
   parse_duration_accepts_grammar _ _ (strict_fmtM y) (by omega),
   parse_duration_accepts_grammar _ _ (strict_fmtHM x y) (by omega)⟩

/-- Witness for C9 at `X = 2`, `Y = 30`. -/
theorem C9_duration_roundtrip_witness :
    (1 : Nat) ≤ 2 ∧ (1 : Nat) ≤ 30 ∧
      (parse_duration (fmtH 2) = some 120 ∧
        parse_duration (fmtM 30) = some 30 ∧
        parse_duration (fmtHM 2 30) = some 150) :=
  ⟨by decide, by decide, C9_duration_roundtrip 2 30 (by decide) (by decide)⟩

/-! ### Data model (`models.Client`)

IPv6 addresses are the `Nat` value of the 128-bit address; timestamps are
abstract `Int` instants. -/

/-- A row of the `clients` table (src/models.py). -/
structure ClientRow where
  fleet_id : String
  public_key : String
  assigned_ip : Nat
  http_request_ip : String
  hostname : Option String
  timestamp : Int
deriving DecidableEq, Repr

/-! ### `routes.get_unique_hostname` -/

/-- The query `session.query(Client).filter_by(fleet_id=…, hostname=…).first()
is not None` of the while-loop condition. -/
def hostnameTaken (reg : List ClientRow) (fleet name : String) : Bool :=
  (reg.find? (fun c => c.fleet_id == fleet && c.hostname == some name)).isSome

/-- The while loop of `get_unique_hostname`, with explicit fuel (the Python
loop is unbounded; `get_unique_hostname_terminates` inside the main theorem
shows this fuel always suffices). -/
def get_unique_hostname_loop (reg : List ClientRow) (fleet base : String) :
    Nat → String → Nat → Option String
  | 0, _, _ => none
  | fuel + 1, current, counter =>
    if hostnameTaken reg fleet current then
      get_unique_hostname_loop reg fleet base fuel (base ++ natRepr counter) (counter + 1)
    else some current

/-- Embedding of `routes.get_unique_hostname`: scan `requested`, `requested2`,
`requested3`, … until a hostname unused in the fleet is found. -/
def get_unique_hostname (reg : List ClientRow) (fleet requested : String) : Option String :=
  get_unique_hostname_loop reg fleet requested (reg.length + 2) requested 2

/-- The candidate sequence the loop visits, starting from `current` with the
numeric suffix at `counter`. -/
def hostCand (base current : String) (counter : Nat) : Nat → String
  | 0 => current
  | i + 1 => base ++ natRepr (counter + i)

theorem hostCand_shift (base current : String) (counter j : Nat) :
    hostCand base (base ++ natRepr counter) (counter + 1) j
      = hostCand base current counter (j + 1) := by
  cases j with
  | zero => simp [hostCand]
  | succ j =>
    show base ++ natRepr (counter + 1 + j) = base ++ natRepr (counter + (j + 1))
    rw [show counter + 1 + j = counter + (j + 1) from by omega]

theorem get_unique_hostname_loop_finds (reg : List ClientRow) (fleet base : String) :
    ∀ i fuel (current : String) (counter : Nat), i < fuel →
      (∀ j, j < i → hostnameTaken reg fleet (hostCand base current counter j) = true) →
      hostnameTaken reg fleet (hostCand base current counter i) = false →
      get_unique_hostname_loop reg fleet base fuel current counter
        = some (hostCand base current counter i) := by
  intro i
  induction i with
  | zero =>
    intro fuel current counter hlt _ hfree
    cases fuel with
    | zero => omega
    | succ f =>
      rw [get_unique_hostname_loop]
      rw [show hostCand base current counter 0 = current from rfl] at hfree
      rw [hfree]
      simp [hostCand]
  | succ i ih =>
    intro fuel current counter hlt hprev hfree
    cases fuel with
    | zero => omega
    | succ f =>
      rw [get_unique_hostname_loop]
      have h0 : hostnameTaken reg fleet current = true := hprev 0 (by omega)
      rw [h0]
      simp only [if_true]
      rw [ih f (base ++ natRepr counter) (counter + 1) (by omega)
        (fun j hj => by rw [hostCand_shift]; exact hprev (j + 1) (by omega))
        (by rw [hostCand_shift]; exact hfree)]
      rw [hostCand_shift]

/-- A hostname reported taken is the hostname of some registry row. -/
theorem hostnameTaken_mem {reg : List ClientRow} {fleet name : String}
    (h : hostnameTaken reg fleet name = true) :
    name ∈ reg.filterMap ClientRow.hostname := by
  unfold hostnameTaken at h
  rw [Option.isSome_iff_exists] at h
  obtain ⟨r, hr⟩ := h
  have hmem := List.mem_of_find?_eq_some hr
  have hp := List.find?_some hr
  rw [Bool.and_eq_true, beq_iff_eq, beq_iff_eq] at hp
  exact List.mem_filterMap.mpr ⟨r, hmem, hp.2⟩

theorem suffix_cand_injective (base : String) :
    Function.Injective (fun k : Nat => base ++ natRepr k) := by
  intro a b h
  simp only at h
  have : (base ++ natRepr a).data = (base ++ natRepr b).data := congrArg String.data h
  rw [String.data_append, String.data_append] at this
  have := List.append_cancel_left this
  exact natRepr_injective (by
    apply congrArg String.data at h
    rw [String.data_append, String.data_append] at h
    exact congrArg String.mk (List.append_cancel_left h))

/-- Some candidate among the first `reg.length + 2` is free: the suffixed
candidates are pairwise distinct, and only `reg.length` hostnames exist. -/
theorem exists_free_candidate (reg : List ClientRow) (fleet requested : String) :
    ∃ i, i < reg.length + 2 ∧
      hostnameTaken reg fleet (hostCand requested requested 2 i) = false := by
  by_contra hall
  push_neg at hall
  have htaken : ∀ i, i < reg.length + 2 →
      hostnameTaken reg fleet (hostCand requested requested 2 i) = true := by
    intro i hi
    have := hall i hi
    revert this
    cases hostnameTaken reg fleet (hostCand requested requested 2 i) <;> simp
  set L : List String :=
    (List.range (reg.length + 1)).map (fun j => requested ++ natRepr (j + 2)) with hL
  have hnodup : L.Nodup := by
    refine List.Nodup.map ?_ (List.nodup_range _)
    intro a b hab
    simp only at hab
    have := suffix_cand_injective requested hab
    omega
  have hsub : L ⊆ reg.filterMap ClientRow.hostname := by
    intro x hx
    rw [hL, List.mem_map] at hx
    obtain ⟨j, hj, rfl⟩ := hx
    rw [List.mem_range] at hj
    have hcand : requested ++ natRepr (j + 2) = hostCand requested requested 2 (j + 1) := by
      show _ = requested ++ natRepr (2 + j)
      rw [Nat.add_comm 2 j]
    rw [hcand]
    exact hostnameTaken_mem (htaken (j + 1) (by omega))
  have hlen : L.length ≤ (reg.filterMap ClientRow.hostname).length :=
    (List.subperm_of_subset hnodup hsub).length_le
  have h1 : L.length = reg.length + 1 := by simp [hL]
  have h2 := List.length_filterMap_le ClientRow.hostname reg
  omega

/-- C7.  `get_unique_hostname` terminates on every finite registry and
returns: the requested name when unused in the fleet; otherwise the first
`requested‹k›` (decimal suffix starting at `k = 2`) unused in the fleet.  In
particular, with one row holding hostname `alpha` in fleet `f1`, requesting
`alpha` yields `alpha2`. -/
theorem C7_hostname_uniqueness :
    (∀ (reg : List ClientRow) (fleet requested : String),
      ∃ r, get_unique_hostname reg fleet requested = some r ∧
        hostnameTaken reg fleet r = false ∧
        ((hostnameTaken reg fleet requested = false ∧ r = requested) ∨
          (hostnameTaken reg fleet requested = true ∧
            ∃ k, 2 ≤ k ∧ r = requested ++ natRepr k ∧
              ∀ j, 2 ≤ j → j < k →
                hostnameTaken reg fleet (requested ++ natRepr j) = true))) ∧
    get_unique_hostname [⟨"f1", "pk1", 1, "src1", some "alpha", 0⟩] "f1" "alpha"
      = some "alpha2" := by
  constructor
  · intro reg fleet requested
    obtain ⟨i₀, hi₀, hfree₀⟩ := exists_free_candidate reg fleet requested
    have hex : ∃ i, hostnameTaken reg fleet (hostCand requested requested 2 i) = false :=
      ⟨i₀, hfree₀⟩
    set i := Nat.find hex with hidef
    have hfree : hostnameTaken reg fleet (hostCand requested requested 2 i) = false :=
      Nat.find_spec hex
    have hmin : ∀ j, j < i →
        hostnameTaken reg fleet (hostCand requested requested 2 j) = true := by
      intro j hj
      have := Nat.find_min hex hj
      revert this
      cases hostnameTaken reg fleet (hostCand requested requested 2 j) <;> simp
    have hilt : i < reg.length + 2 := Nat.lt_of_le_of_lt (Nat.find_min' hex hfree₀) hi₀
    refine ⟨hostCand requested requested 2 i, ?_, hfree, ?_⟩
    · exact get_unique_hostname_loop_finds reg fleet requested i _ requested 2 hilt hmin hfree
    · cases hi : i with
      | zero =>
        left
        rw [hi] at hfree
        exact ⟨hfree, rfl⟩
      | succ i' =>
        right
        have h0 : hostnameTaken reg fleet requested = true := by
          have := hmin 0 (by omega)
          exact this
        refine ⟨h0, i' + 2, by omega, ?_, ?_⟩
        · show requested ++ natRepr (2 + i') = requested ++ natRepr (i' + 2)
          rw [Nat.add_comm]
        · intro j hj2 hjlt
          have := hmin (j - 1) (by omega)
          have hcand : hostCand requested requested 2 (j - 1) = requested ++ natRepr j := by
            have : j - 1 = (j - 2) + 1 := by omega
            rw [this]
            show requested ++ natRepr (2 + (j - 2)) = requested ++ natRepr j
            congr 1
            congr 1
            omega
          rwa [hcand] at this
  · decide

/-! ### Fleet configuration and the heartbeat handler (`routes.ping_client`) -/

/-- Embedding of `config.FleetConfig`, with the parsed form of `subnet`: its aligned
network address and prefix length. -/
structure FleetConfigM where
  ip6 : Nat
  subnetNet : Nat
  subnetPrefix : Nat
  external_ip : String
  port : Nat
deriving DecidableEq, Repr

/-- Embedding of `config.Config` (fleets as an association list). -/
structure ConfigM where
  domain : String
  prune_timeout : String
  fleets : List (String × FleetConfigM)
deriving DecidableEq, Repr

/-- Membership test `client_addr in fleet_network` for an aligned IPv6 network. -/
def inSubnet (fc : FleetConfigM) (ip : Nat) : Bool :=
  fc.subnetNet ≤ ip && ip < fc.subnetNet + 2 ^ (128 - fc.subnetPrefix)

/-- A character of the class `[a-z0-9_-]`. -/
def isHostChar (c : Char) : Bool :=
  ('a' ≤ c && c ≤ 'z') || ('0' ≤ c && c ≤ '9') || c == '_' || c == '-'

/-- Python's `re.match(r'^[a-z0-9_-]+$', s) is not None`: an anchored match,
where `$` also matches just before one trailing newline. -/
def matchesHostnameRegex (s : String) : Bool :=
  let core := if s.data.getLast? == some '\n' then s.data.dropLast else s.data
  !core.isEmpty && core.all isHostChar

/-- Outcome of a request handler: the committed session state on success, or
the `HTTPException` status code. -/
inductive PingResult where
  | ok (registry : List ClientRow) (hostname_changed : Bool)
  | err (status : Nat)
deriving DecidableEq, Repr

/-- Mutate the first row matching `p` (the ORM object `first()` returned). -/
def updateFirst (p : ClientRow → Bool) (f : ClientRow → ClientRow) :
    List ClientRow → List ClientRow
  | [] => []
  | c :: rest => if p c then f c :: rest else c :: updateFirst p f rest

/-- Version of `get_unique_hostname` with the fuel result unwrapped; by
`C7_hostname_uniqueness`'s termination argument the fuel always suffices, so
the default is never taken. -/
def get_unique_hostname_total (reg : List ClientRow) (fleet requested : String) : String :=
  (get_unique_hostname reg fleet requested).getD requested

/-- Embedding of `routes.ping_client`.  `clientIp` is the parsed form of the
`X-Forwarded-For` / transport address (`none` = unparseable, the
`ValueError` branch).  The session mutations (timestamp, hostname) are
applied to a session view; `.ok` carries the state `db.commit()` persists,
`.err` models a raised `HTTPException` (session rolled back by the
`get_db_session` scope). -/
def ping_client (cfg : ConfigM) (fleet_name : String) (reqHostname : Option String)
    (clientIp : Option Nat) (now : Int) (registry : List ClientRow) : PingResult :=
  match cfg.fleets.lookup fleet_name with
  | none => .err 404
  | some fc =>
    match clientIp with
    | none => .err 403
    | some ip =>
      if !inSubnet fc ip then .err 403
      else
        match registry.find? (fun c => c.fleet_id == fleet_name && c.assigned_ip == ip) with
        | none => .err 404
        | some client =>
          let isRow := fun c : ClientRow => c.fleet_id == fleet_name && c.assigned_ip == ip
          let session := updateFirst isRow (fun c => { c with timestamp := now }) registry
          match reqHostname with
          | none => .ok session false
          | some h =>
            if h = "" then .ok session false
            else if matchesHostnameRegex h then
              if client.hostname = some h then .ok session false
              else
                let unique := get_unique_hostname_total session fleet_name h
                .ok (updateFirst isRow (fun c => { c with hostname := some unique }) session)
                  true
            else .err 400

/-- The registry as seen after the request: the session state on commit, the
unchanged pre-state when the handler raised (scoped session rollback). -/
def ping_committed (cfg : ConfigM) (fleet_name : String) (reqHostname : Option String)
    (clientIp : Option Nat) (now : Int) (registry : List ClientRow) : List ClientRow :=
  match ping_client cfg fleet_name reqHostname clientIp now registry with
  | .ok reg _ => reg
  | .err _ => registry

/-- A one-fleet configuration used for concrete heartbeat scenarios: fleet
`f1` with subnet network address 0, prefix 120 (host range `[0, 256)`). -/
def pingCfg : ConfigM := ⟨"t.local", "1h", [("f1", ⟨1, 0, 120, "203.0.113.1", 51820⟩)]⟩

/-- A registered client of `f1` at address 5 holding hostname `old`. -/
def pingRow : ClientRow := ⟨"f1", "pk1", 5, "src", some "old", 0⟩

/-- Counterexample to C6 as stated: the empty string fails the hostname
regex, yet a heartbeat carrying `hostname = ""` is NOT rejected with 400 —
Python's `if ping_req.hostname:` treats `""` as absent, so the request
succeeds and commits the timestamp update. -/
theorem C6_counterexample :
    matchesHostnameRegex "" = false ∧
      ping_client pingCfg "f1" (some "") (some 5) 100 [pingRow]
        = .ok [⟨"f1", "pk1", 5, "src", some "old", 100⟩] false := by
  constructor <;> decide

/-- C6 (amended).  For every heartbeat on a known fleet from a registered,
in-subnet client whose body includes a NONEMPTY hostname failing the
anchored match (Python `re.match` semantics, which also tolerate a single
trailing newline), the handler rejects with 400 and commits nothing; an
empty hostname is instead treated as absent (see the counterexample). -/
theorem C6_bad_hostname_rejected (cfg : ConfigM) (fleet h : String) (fc : FleetConfigM)
    (ip : Nat) (now : Int) (reg : List ClientRow) (client : ClientRow)
    (hfc : cfg.fleets.lookup fleet = some fc)
    (hsub : inSubnet fc ip = true)
    (hrow : reg.find? (fun c => c.fleet_id == fleet && c.assigned_ip == ip) = some client)
    (hne : h ≠ "")
    (hbad : matchesHostnameRegex h = false) :
    ping_client cfg fleet (some h) (some ip) now reg = .err 400 ∧
      ping_committed cfg fleet (some h) (some ip) now reg = reg := by
  have hping : ping_client cfg fleet (some h) (some ip) now reg = .err 400 := by
    unfold ping_client
    simp [hfc, hsub, hrow, hne, hbad]
  exact ⟨hping, by simp [ping_committed, hping]⟩

/-- Witness for C6 (amended) at a concrete bad hostname `"Bad Host"`. -/
theorem C6_bad_hostname_rejected_witness :
    pingCfg.fleets.lookup "f1" = some ⟨1, 0, 120, "203.0.113.1", 51820⟩ ∧
      inSubnet ⟨1, 0, 120, "203.0.113.1", 51820⟩ 5 = true ∧
      [pingRow].find? (fun c => c.fleet_id == "f1" && c.assigned_ip == 5) = some pingRow ∧
      "Bad Host" ≠ "" ∧
      matchesHostnameRegex "Bad Host" = false ∧
      (ping_client pingCfg "f1" (some "Bad Host") (some 5) 100 [pingRow] = .err 400 ∧
        ping_committed pingCfg "f1" (some "Bad Host") (some 5) 100 [pingRow] = [pingRow]) :=
  ⟨by decide, by decide, by decide, by decide, by decide,
    C6_bad_hostname_rejected pingCfg "f1" "Bad Host" ⟨1, 0, 120, "203.0.113.1", 51820⟩
      5 100 [pingRow] pingRow (by decide) (by decide) (by decide) (by decide) (by decide)⟩

/-- C10.  Heartbeat is atomic on error: once the client row has been located
(known fleet, parseable in-subnet source address, registered client), a
failing request — the only such failure is the bad-hostname 400 — commits no
Registry change: the committed state equals the pre-state, because
`db.commit()` is the final step and the scoped session discards uncommitted
changes (the already-applied timestamp update included) on abnormal exit. -/
theorem C10_heartbeat_atomic (cfg : ConfigM) (fleet : String)
    (reqHostname : Option String) (fc : FleetConfigM) (ip : Nat) (now : Int)
    (reg : List ClientRow) (client : ClientRow) (e : Nat)
    (hfc : cfg.fleets.lookup fleet = some fc)
    (hsub : inSubnet fc ip = true)
    (hrow : reg.find? (fun c => c.fleet_id == fleet && c.assigned_ip == ip) = some client)
    (he : ping_client cfg fleet reqHostname (some ip) now reg = .err e) :
    ping_committed cfg fleet reqHostname (some ip) now reg = reg ∧ e = 400 := by
  refine ⟨by simp [ping_committed, he], ?_⟩
  unfold ping_client at he
  simp only [hfc, hsub, hrow, Bool.not_true, Bool.false_eq_true, if_false] at he
  cases reqHostname with
  | none => simp at he
  | some h =>
    dsimp only at he
    by_cases hemp : h = ""
    · simp [hemp] at he
    · rw [if_neg hemp] at he
      by_cases hre : matchesHostnameRegex h
      · rw [if_pos hre] at he
        by_cases hsame : client.hostname = some h
        · rw [if_pos hsame] at he; simp at he
        · rw [if_neg hsame] at he; simp at he
      · rw [if_neg hre] at he
        have := he
        simp at this
        omega

/-- Witness for C10 at a concrete failing heartbeat (bad hostname `"UP"`). -/
theorem C10_heartbeat_atomic_witness :
    pingCfg.fleets.lookup "f1" = some ⟨1, 0, 120, "203.0.113.1", 51820⟩ ∧
      inSubnet ⟨1, 0, 120, "203.0.113.1", 51820⟩ 5 = true ∧
      [pingRow].find? (fun c => c.fleet_id == "f1" && c.assigned_ip == 5) = some pingRow ∧
      ping_client pingCfg "f1" (some "UP") (some 5) 100 [pingRow] = .err 400 ∧
      (ping_committed pingCfg "f1" (some "UP") (some 5) 100 [pingRow] = [pingRow] ∧
        (400 : Nat) = 400) :=
  ⟨by decide, by decide, by decide, by decide,
    C10_heartbeat_atomic pingCfg "f1" (some "UP") ⟨1, 0, 120, "203.0.113.1", 51820⟩
      5 100 [pingRow] pingRow 400 (by decide) (by decide) (by decide) (by decide)⟩

/-! ### Event bus (`hook_manager.trigger_hooks`) -/

/-- Embedding of `hook_manager.EventType`. -/
inductive EventType where
  | startup
  | clientAdded
  | clientHostnameChanged
  | clientRemoved
deriving DecidableEq, Repr

/-- Embedding of `hook_manager.HookContext` (the session factory handle is opaque to this
model; subscribers are arbitrary functions of the context anyway). -/
structure HookContext where
  event_type : EventType
  config : ConfigM
  client_data : Option (List (String × String))

/-- A registered hook: its `__name__` and its body.  A body returning
`.error e` models the hook raising exception `e`. -/
structure Hook where
  name : String
  run : HookContext → Except String Unit

/-- Embedding of `hook_manager.trigger_hooks`: run every registered hook in order; a
raising hook is logged (name and error collected) and the loop continues.
Returns the execution trace (each hook's name with its outcome, in
invocation order) and the collected errors.  The function is total — the
Lean counterpart of `trigger_hooks` never raising. -/
def trigger_hooks (hooks : List Hook) (ctx : HookContext) :
    List (String × Except String Unit) × List (String × String) :=
  match hooks with
  | [] => ([], [])
  | h :: rest =>
    let r := h.run ctx
    let (trace, errs) := trigger_hooks rest ctx
    match r with
    | .ok _ => ((h.name, r) :: trace, errs)
    | .error e => ((h.name, r) :: trace, (h.name, e) :: errs)

/-- C5.  `trigger_hooks` invokes every registered subscriber exactly once,
sequentially in registration order, whether or not earlier subscribers
raised; each raising subscriber is recorded (logged) under its own name with
its error, and the operation itself is total, i.e. never raises. -/
theorem C5_trigger_hooks_isolated (hooks : List Hook) (ctx : HookContext) :
    (trigger_hooks hooks ctx).1 = hooks.map (fun h => (h.name, h.run ctx)) ∧
      (trigger_hooks hooks ctx).2 = hooks.filterMap (fun h =>
        match h.run ctx with
        | .ok _ => none
        | .error e => some (h.name, e)) := by
  induction hooks with
  | nil => exact ⟨rfl, rfl⟩
  | cons h rest ih =>
    rw [trigger_hooks]
    cases hr : h.run ctx with
    | ok u =>
      cases u
      constructor
      · simp [List.map_cons, hr, ih.1]
      · simp [List.filterMap_cons, hr, ih.2]
    | error e =>
      constructor
      · simp [List.map_cons, hr, ih.1]
      · simp [List.filterMap_cons, hr, ih.2]

/-! ### Startup reconciliation (`main.reconcile_fleet_state`) -/

/-- Effect of `wireguard.remove_peer` on the modelled per-fleet peer-key set. -/
def removePeerKey (peers : List String) (pub : String) : List String :=
  peers.filter (fun p => p != pub)

/-- Embedding of `main.reconcile_fleet_state`: remove WireGuard peers absent from the
database, delete database rows absent from WireGuard, then commit.  Input:
the fleet's live peer public keys and its registry rows; output: both after
the pass.  Both removal loops consult the snapshots taken at entry, as in
the source. -/
def reconcile_fleet_state (fleet : String) (wgPeers : List String)
    (dbClients : List ClientRow) : List String × List ClientRow :=
  let db_pubkeys := dbClients.map ClientRow.public_key
  let orphanPeers := wgPeers.filter (fun p => decide (p ∉ db_pubkeys))
  let wgAfter := orphanPeers.foldl removePeerKey wgPeers
  let dbAfter := dbClients.filter (fun c => decide (c.public_key ∈ wgPeers))
  (wgAfter, dbAfter)

theorem foldl_removePeerKey_mem (ds : List String) :
    ∀ (l : List String) (x : String),
      x ∈ ds.foldl removePeerKey l ↔ x ∈ l ∧ x ∉ ds := by
  induction ds with
  | nil => intro l x; simp
  | cons d ds ih =>
    intro l x
    rw [List.foldl_cons, ih]
    unfold removePeerKey
    simp only [List.mem_filter, bne_iff_ne, ne_eq, List.mem_cons]
    constructor
    · rintro ⟨⟨hl, hd⟩, hds⟩
      exact ⟨hl, by tauto⟩
    · rintro ⟨hl, hnot⟩
      push_neg at hnot
      exact ⟨⟨hl, hnot.1⟩, hnot.2⟩

/-- C4.  One pass of startup reconciliation removes exactly the Driver peers
whose key is not registered and deletes exactly the Registry rows whose key
has no Driver peer: afterwards both sides hold precisely `P ∩ R`, so their
symmetric difference is empty.  The second conjunct instantiates the spec's
scenarios: Driver `{A, B}` vs Registry `{A}` reconciles the Driver to `{A}`,
and Driver `{A}` vs Registry `{A, C}` deletes row `C`. -/
theorem C4_reconcile_converges :
    (∀ (fleet : String) (wgPeers : List String) (dbClients : List ClientRow)
        (pub : String),
      (pub ∈ (reconcile_fleet_state fleet wgPeers dbClients).1 ↔
        pub ∈ wgPeers ∧ pub ∈ dbClients.map ClientRow.public_key) ∧
      (pub ∈ ((reconcile_fleet_state fleet wgPeers dbClients).2.map ClientRow.public_key) ↔
        pub ∈ dbClients.map ClientRow.public_key ∧ pub ∈ wgPeers) ∧
      (pub ∈ (reconcile_fleet_state fleet wgPeers dbClients).1 ↔
        pub ∈ ((reconcile_fleet_state fleet wgPeers dbClients).2.map ClientRow.public_key))) ∧
    reconcile_fleet_state "f1" ["A", "B"] [⟨"f1", "A", 1, "s", none, 0⟩]
      = (["A"], [⟨"f1", "A", 1, "s", none, 0⟩]) ∧
    reconcile_fleet_state "f1" ["A"]
        [⟨"f1", "A", 1, "s", none, 0⟩, ⟨"f1", "C", 2, "s", none, 0⟩]
      = (["A"], [⟨"f1", "A", 1, "s", none, 0⟩]) := by
  refine ⟨?_, by decide, by decide⟩
  intro fleet wgPeers dbClients pub
  have hwg : pub ∈ (reconcile_fleet_state fleet wgPeers dbClients).1 ↔
      pub ∈ wgPeers ∧ pub ∈ dbClients.map ClientRow.public_key := by
    unfold reconcile_fleet_state
    rw [foldl_removePeerKey_mem]
    simp only [List.mem_filter, decide_eq_true_eq]
    tauto
  have hdb : pub ∈ ((reconcile_fleet_state fleet wgPeers dbClients).2.map ClientRow.public_key) ↔
      pub ∈ dbClients.map ClientRow.public_key ∧ pub ∈ wgPeers := by
    unfold reconcile_fleet_state
    simp only [List.mem_map, List.mem_filter, decide_eq_true_eq]
    constructor
    · rintro ⟨c, ⟨hc, hcwg⟩, rfl⟩
      exact ⟨⟨c, hc, rfl⟩, hcwg⟩
    · rintro ⟨⟨c, hc, rfl⟩, hwg'⟩
      exact ⟨c, ⟨hc, hwg'⟩, rfl⟩
  exact ⟨hwg, hdb, by rw [hwg, hdb]; tauto⟩

/-! ### Pruning (`pruning.prune_stale_clients_once`) -/

/-- An entry of `wireguard.list_peers`: `last_handshake` is `none` when the
kernel reports zero (peer never completed a handshake). -/
structure WgPeer where
  public_key : String
  allowed_ips : String
  last_handshake : Option Int
  rx_bytes : Nat
  tx_bytes : Nat
deriving DecidableEq, Repr

/-- Delete the first row matching `p` (`session.delete` of the row that
`first()` returned). -/
def removeFirstRow (p : ClientRow → Bool) : List ClientRow → List ClientRow
  | [] => []
  | c :: rest => if p c then rest else c :: removeFirstRow p rest

/-- The per-fleet loop body of `pruning.prune_stale_clients_once`, iterating
over the `list_peers` snapshot while mutating the live peer set, the session
rows and the pruned count.  Peers with `last_handshake is None` are skipped
(`continue`); a peer with `last_handshake < cutoff` is removed from
WireGuard, and the matching registry row, if any, is deleted and counted. -/
def prune_fleet_loop (fleet : String) (cutoff : Int) :
    List WgPeer → List WgPeer → List ClientRow → Nat →
    List WgPeer × List ClientRow × Nat
  | [], live, rows, count => (live, rows, count)
  | peer :: rest, live, rows, count =>
    match peer.last_handshake with
    | none => prune_fleet_loop fleet cutoff rest live rows count
    | some hs =>
      if hs < cutoff then
        let live' := live.filter (fun p => p.public_key != peer.public_key)
        match rows.find? (fun c => c.fleet_id == fleet && c.public_key == peer.public_key) with
        | some _ =>
          prune_fleet_loop fleet cutoff rest live'
            (removeFirstRow
              (fun c => c.fleet_id == fleet && c.public_key == peer.public_key) rows)
            (count + 1)
        | none => prune_fleet_loop fleet cutoff rest live' rows count
      else prune_fleet_loop fleet cutoff rest live rows count

/-- One pruning cycle for one fleet: live WireGuard peers and registry rows
before, `(peers, rows, pruned count)` after commit. -/
def prune_stale_clients_once_fleet (fleet : String) (cutoff : Int)
    (wgPeers : List WgPeer) (rows : List ClientRow) :
    List WgPeer × List ClientRow × Nat :=
  prune_fleet_loop fleet cutoff wgPeers wgPeers rows 0

/-- C2, evaluated at the failing input (the scenario of the repository's own
`test_prune_never_connected_stale_clients`): one registry row 2 h old
(timestamp −20 against cutoff 40, i.e. `timestamp < cutoff`) whose peer
reports a null handshake.  The claim — and the repository's test — require
the row deleted, the peer removed and the client counted; the code's
`continue` on `last_handshake is None` leaves everything untouched and
prunes nothing. -/
theorem C2_prune_skips_never_connected :
    prune_stale_clients_once_fleet "testfleet" 40
        [⟨"never_connected_key", "fd00::66/128", none, 0, 0⟩]
        [⟨"testfleet", "never_connected_key", 7, "src", some "never", -20⟩]
      = ([⟨"never_connected_key", "fd00::66/128", none, 0, 0⟩],
          [⟨"testfleet", "never_connected_key", 7, "src", some "never", -20⟩], 0) ∧
      (-20 : Int) < 40 := by
  constructor <;> decide

/-! ### Registration (`routes.register_client`, `routes.allocate_random_ip`)

The handler's fallible collaborators (keypair generation, `wg set`, the
database commit, reading the server public key) are driven by an explicit
fault profile, so every run of the handler is a pure function; the outcome
records the HTTP result, the Driver and Registry states after the request,
and the successful Driver mutations in order. -/

/-- Embedding of `routes.allocate_random_ip`: network address plus the random host part
(`random.randint(1, 2**(128 - prefixlen) - 1)`), the draw being an explicit
argument. -/
def allocate_random_ip (fc : FleetConfigM) (draw : Nat) : Nat :=
  fc.subnetNet + draw

/-- Embedding of `wireguard.build_client_config` (pure formatting; addresses are passed
already rendered as text). -/
def build_client_config (client_private_key client_ip server_public_key
    endpoint_ip : String) (endpoint_port : Nat) (server_ip : String) : String :=
  "[Interface]\nPrivateKey = " ++ client_private_key ++
    "\nAddress = " ++ client_ip ++
    "\n\n[Peer]\nPublicKey = " ++ server_public_key ++
    "\nEndpoint = " ++ endpoint_ip ++ ":" ++ natRepr endpoint_port ++
    "\nAllowedIPs = " ++ server_ip ++ "/128\nPersistentKeepalive = 25\n"

/-- A mutating Driver invocation made by a handler. -/
inductive DriverCall where
  | addPeer (fleet pub : String) (ip : Nat)
  | removePeer (fleet pub : String)
deriving DecidableEq, Repr

/-- Which of the register path's fallible steps raise on this run. -/
structure RegisterFaults where
  keypair_fails : Bool
  add_peer_fails : Bool
  commit_fails : Bool
  server_key_fails : Bool
deriving DecidableEq, Repr

instance {ε α : Type} [DecidableEq ε] [DecidableEq α] : DecidableEq (Except ε α) := fun x y =>
  match x, y with
  | .ok a, .ok b =>
    if h : a = b then .isTrue (h ▸ rfl) else .isFalse (fun hc => h (Except.ok.inj hc))
  | .error a, .error b =>
    if h : a = b then .isTrue (h ▸ rfl) else .isFalse (fun hc => h (Except.error.inj hc))
  | .ok _, .error _ => .isFalse (fun hc => Except.noConfusion hc)
  | .error _, .ok _ => .isFalse (fun hc => Except.noConfusion hc)

/-- Result of one `register` request. -/
structure RegisterOutcome where
  result : Except Nat String
  wg : List (String × Nat)
  registry : List ClientRow
  driver_calls : List DriverCall
deriving DecidableEq, Repr

/-- Embedding of `routes.register_client`: validate the fleet, generate a keypair,
allocate one random IPv6, `wg set … peer … allowed-ips …`, insert the row and
commit, read the server key and return the client config.  Any exception in
the `try` block is caught and surfaced as HTTP 500 — with no compensating
`remove_peer` and no retry of the allocation. -/
def register_client (cfg : ConfigM) (fleet_name : String) (faults : RegisterFaults)
    (priv pub : String) (draw : Nat) (server_pub request_ip : String) (now : Int)
    (registry : List ClientRow) (wg : List (String × Nat)) : RegisterOutcome :=
  match cfg.fleets.lookup fleet_name with
  | none => ⟨.error 404, wg, registry, []⟩
  | some fc =>
    if faults.keypair_fails then ⟨.error 500, wg, registry, []⟩
    else
      let client_ip := allocate_random_ip fc draw
      if faults.add_peer_fails then ⟨.error 500, wg, registry, []⟩
      else
        let wg1 := wg ++ [(pub, client_ip)]
        let calls := [DriverCall.addPeer fleet_name pub client_ip]
        if faults.commit_fails then ⟨.error 500, wg1, registry, calls⟩
        else
          let registry1 := registry ++ [⟨fleet_name, pub, client_ip, request_ip, none, now⟩]
          if faults.server_key_fails then ⟨.error 500, wg1, registry1, calls⟩
          else
            ⟨.ok (build_client_config priv (natRepr client_ip) server_pub
                fc.external_ip fc.port (natRepr fc.ip6)),
              wg1, registry1, calls⟩

/-- Fleet `f1` with subnet network address 0, prefix 120, as used by the
concrete registration runs. -/
def regCfg : ConfigM := ⟨"t.local", "1h", [("f1", ⟨1, 0, 120, "203.0.113.1", 51820⟩)]⟩

/-- C1, evaluated at the failing input: the registry already holds
`(f1, ip 5)` and the random draw yields 5 again.  The handler performs no
Registry collision check and no retry: it commits a second row with the same
`(fleet, ip)` and answers success, instead of redrawing (bounded at 8) and
failing with HTTP 500 `ErrExhausted` on exhaustion. -/
theorem C1_register_commits_duplicate_ip :
    (register_client regCfg "f1" ⟨false, false, false, false⟩ "privB" "pubB" 5
        "srvPub" "9.9.9.9" 50 [⟨"f1", "pubA", 5, "src", none, 0⟩] [("pubA", 5)]).registry.map
          (fun c => (c.fleet_id, c.assigned_ip)) = [("f1", 5), ("f1", 5)] ∧
      (register_client regCfg "f1" ⟨false, false, false, false⟩ "privB" "pubB" 5
          "srvPub" "9.9.9.9" 50 [⟨"f1", "pubA", 5, "src", none, 0⟩] [("pubA", 5)]).result
        = .ok (build_client_config "privB" (natRepr 5) "srvPub" "203.0.113.1" 51820
            (natRepr 1)) := by
  constructor <;> decide

/-- Counterexample to C3 as stated: with the database commit failing after
`add_peer` succeeded, the handler surfaces HTTP 500 while the added peer is
still in the Driver state and the list of Driver mutations contains no
`remove_peer` — no compensation is attempted. -/
theorem C3_counterexample :
    register_client regCfg "f1" ⟨false, false, true, false⟩ "privB" "pubB" 6
        "srvPub" "9.9.9.9" 50 [] []
      = ⟨.error 500, [("pubB", 6)], [], [.addPeer "f1" "pubB" 6]⟩ := by
  decide

/-- C3 (amended).  On any failure after the Driver peer was added (a failing
database commit, or a failure after the commit while reading the server
public key), the handler performs NO compensating `remove_peer`: it logs and
surfaces HTTP 500, leaving the added peer in the Driver state; recovery is
left to startup reconciliation. -/
theorem C3_no_compensating_remove (cfg : ConfigM) (fleet : String)
    (faults : RegisterFaults) (priv pub : String) (draw : Nat)
    (server_pub request_ip : String) (now : Int) (registry : List ClientRow)
    (wg : List (String × Nat)) (fc : FleetConfigM)
    (hfc : cfg.fleets.lookup fleet = some fc)
    (hkp : faults.keypair_fails = false)
    (hap : faults.add_peer_fails = false)
    (hfail : faults.commit_fails = true ∨ faults.server_key_fails = true) :
    (register_client cfg fleet faults priv pub draw server_pub request_ip now
        registry wg).result = .error 500 ∧
      (pub, allocate_random_ip fc draw) ∈
        (register_client cfg fleet faults priv pub draw server_pub request_ip now
          registry wg).wg ∧
      (∀ f p, DriverCall.removePeer f p ∉
        (register_client cfg fleet faults priv pub draw server_pub request_ip now
          registry wg).driver_calls) := by
  unfold register_client
  simp only [hfc, hkp, Bool.false_eq_true, if_false, hap]
  by_cases hc : faults.commit_fails
  · simp [hc]
  · have hsk : faults.server_key_fails = true := by
      rcases hfail with h | h
      · exact absurd h hc
      · exact h
    simp [hc, hsk]

/-- Witness for C3 (amended): concrete run with a failing commit. -/
theorem C3_no_compensating_remove_witness :
    regCfg.fleets.lookup "f1" = some ⟨1, 0, 120, "203.0.113.1", 51820⟩ ∧
      (⟨false, false, true, false⟩ : RegisterFaults).keypair_fails = false ∧
      (⟨false, false, true, false⟩ : RegisterFaults).add_peer_fails = false ∧
      ((⟨false, false, true, false⟩ : RegisterFaults).commit_fails = true ∨
        (⟨false, false, true, false⟩ : RegisterFaults).server_key_fails = true) ∧
      ((register_client regCfg "f1" ⟨false, false, true, false⟩ "privC" "pubC" 7
          "srvPub" "9.9.9.9" 50 [] []).result = .error 500 ∧
        ("pubC", allocate_random_ip ⟨1, 0, 120, "203.0.113.1", 51820⟩ 7) ∈
          (register_client regCfg "f1" ⟨false, false, true, false⟩ "privC" "pubC" 7
            "srvPub" "9.9.9.9" 50 [] []).wg ∧
        (∀ f p, DriverCall.removePeer f p ∉
          (register_client regCfg "f1" ⟨false, false, true, false⟩ "privC" "pubC" 7
            "srvPub" "9.9.9.9" 50 [] []).driver_calls)) :=
  ⟨by decide, by decide, by decide, Or.inl (by decide),
    C3_no_compensating_remove regCfg "f1" ⟨false, false, true, false⟩ "privC" "pubC" 7
      "srvPub" "9.9.9.9" 50 [] [] ⟨1, 0, 120, "203.0.113.1", 51820⟩
      (by decide) (by decide) (by decide) (Or.inl (by decide))⟩

end WgFleet
